import Mathlib

/-!
Verification of the `noway` Wayback Machine downloader (src/src/main.rs).

The development shallowly embeds the program:
* the CDX-index listing (`get_wayback_cdx_urls`) as a pure function over the
  decoded JSON array-of-arrays, with a distinguished result for a Rust panic
  (out-of-bounds `row[idx]` indexing);
* the per-target download (`download_html`) as a pure function over injected
  effect results (HTTP send, body read, file create, file write);
* `main`'s sequential skeleton (`mainRun`) as a pure function over injected
  effect results, producing a `RunOutcome`;
* `main`'s concurrent download loop (semaphore + spawned workers + mutex-guarded
  failure list) as a small-step transition system `Step` on `OrchState`.
-/

/-! ## JSON values as consumed by the listing code

`serde_json::Value` restricted to what `get_wayback_cdx_urls` inspects: the
only operation used is `Value::as_str`, which is `some` exactly on JSON
strings.  Arrays/objects never reach `as_str` usefully, so non-string values
are represented by the remaining constructors. -/

inductive JValue where
  | str (s : String)
  | num (n : Int)
  | bool (b : Bool)
  | null
deriving DecidableEq

/-- `Value::as_str`: `Some` on strings, `None` otherwise. -/
def JValue.as_str : JValue → Option String
  | .str s => some s
  | _ => none

/-- `Iterator::position`: index of the first element satisfying `p`. -/
def position (p : JValue → Bool) : List JValue → Option Nat
  | [] => none
  | v :: rest => if p v then some 0 else (position p rest).map (· + 1)

/-- Result of the listing stage.  `err` is a `miette` error returned with `?`
(`ListingFailed`); `panicked` is a Rust panic from `row[idx]` going out of
bounds. -/
inductive CdxResult where
  | ok (urls : List String)
  | err (msg : String)
  | panicked
deriving DecidableEq

/-- The row loop of `get_wayback_cdx_urls` (main.rs lines 161-168):
`row[timestamp_idx]` / `row[original_url_idx]` panic when the row is too short
(`get? = none`); a non-string value at those positions is a `context` error
returned via `?`. -/
def cdxRows (tIdx oIdx : Nat) : List (List JValue) → CdxResult
  | [] => .ok []
  | row :: rest =>
    match row[tIdx]? with
    | none => .panicked
    | some tv =>
      match tv.as_str with
      | none => .err "Invalid timestamp"
      | some ts =>
        match row[oIdx]? with
        | none => .panicked
        | some ov =>
          match ov.as_str with
          | none => .err "Invalid URL"
          | some origUrl =>
            match cdxRows tIdx oIdx rest with
            | .ok urls =>
              .ok (("https://web.archive.org/web/" ++ ts ++ "/" ++ origUrl) :: urls)
            | other => other

/-- `get_wayback_cdx_urls` (main.rs lines 122-171) after the HTTP GET and JSON
decode: `data.len() <= 1` short-circuits to an empty list; otherwise the
`timestamp` and `original` columns are located by name in the header row and
each data row yields one capture URL. -/
def getWaybackCdxUrls (data : List (List JValue)) : CdxResult :=
  if data.length ≤ 1 then .ok []
  else
    match data with
    | [] => .ok []
    | headers :: rows =>
      match position (fun h => h.as_str == some "timestamp") headers with
      | none => .err "timestamp field not found"
      | some tIdx =>
        match position (fun h => h.as_str == some "original") headers with
        | none => .err "original field not found"
        | some oIdx => cdxRows tIdx oIdx rows

/-- The string found at position `i` of a row, defaulting to `""`; used only to
state results about well-formed rows. -/
def strAt (row : List JValue) (i : Nat) : String :=
  match row[i]? with
  | some (JValue.str s) => s
  | _ => ""

/-- A row is well formed for column indices `tIdx`, `oIdx` when both positions
exist and hold JSON strings. -/
def goodRow (tIdx oIdx : Nat) (row : List JValue) : Prop :=
  (∃ s, row[tIdx]? = some (JValue.str s)) ∧ (∃ s, row[oIdx]? = some (JValue.str s))

instance (tIdx oIdx : Nat) (row : List JValue) : Decidable (goodRow tIdx oIdx row) := by
  unfold goodRow
  cases row[tIdx]? with
  | none => exact isFalse (by rintro ⟨⟨s, hs⟩, -⟩; cases hs)
  | some v =>
    cases row[oIdx]? with
    | none => exact isFalse (by rintro ⟨-, ⟨s, hs⟩⟩; cases hs)
    | some w =>
      cases v with
      | str s =>
        cases w with
        | str s' => exact isTrue ⟨⟨s, rfl⟩, ⟨s', rfl⟩⟩
        | num n => exact isFalse (by rintro ⟨-, ⟨s', hs⟩⟩; cases hs)
        | bool b => exact isFalse (by rintro ⟨-, ⟨s', hs⟩⟩; cases hs)
        | null => exact isFalse (by rintro ⟨-, ⟨s', hs⟩⟩; cases hs)
      | num n => exact isFalse (by rintro ⟨⟨s, hs⟩, -⟩; cases hs)
      | bool b => exact isFalse (by rintro ⟨⟨s, hs⟩, -⟩; cases hs)
      | null => exact isFalse (by rintro ⟨⟨s, hs⟩, -⟩; cases hs)

theorem cdxRows_ok (tIdx oIdx : Nat) (rows : List (List JValue))
    (h : ∀ row ∈ rows, goodRow tIdx oIdx row) :
    cdxRows tIdx oIdx rows =
      CdxResult.ok (rows.map (fun row =>
        "https://web.archive.org/web/" ++ strAt row tIdx ++ "/" ++ strAt row oIdx)) := by
  induction rows with
  | nil => rfl
  | cons row rest ih =>
    obtain ⟨⟨s, hs⟩, ⟨s', hs'⟩⟩ := h row (List.mem_cons_self row rest)
    have hrest := ih (fun r hr => h r (List.mem_cons_of_mem row hr))
    simp only [cdxRows, hs, hs', hrest, JValue.as_str, List.map_cons]
    simp [strAt, hs, hs']

theorem cdxRows_panics (tIdx oIdx : Nat) (good : List (List JValue)) (bad : List JValue)
    (rest : List (List JValue))
    (hgood : ∀ row ∈ good, goodRow tIdx oIdx row)
    (hbad : bad[tIdx]? = none ∨ ((∃ s, bad[tIdx]? = some (JValue.str s)) ∧ bad[oIdx]? = none)) :
    cdxRows tIdx oIdx (good ++ bad :: rest) = CdxResult.panicked := by
  induction good with
  | nil =>
    rcases hbad with h | ⟨⟨s, hs⟩, h⟩
    · simp [cdxRows, h]
    · simp [cdxRows, hs, h, JValue.as_str]
  | cons row grest ih =>
    obtain ⟨⟨s, hs⟩, ⟨s', hs'⟩⟩ := hgood row (List.mem_cons_self row grest)
    have htail := ih (fun r hr => hgood r (List.mem_cons_of_mem row hr))
    simp [cdxRows, hs, hs', JValue.as_str, htail]

/-- C7: the Snapshot Lister locates the `timestamp` and `original` columns by
name in the header row (at whatever positions they occupy), and every data row
yields one capture URL formed by concatenating the fixed archive base path, the
row's timestamp and the row's original URL, in row order. -/
theorem lister_by_name_concat (headers : List JValue) (rows : List (List JValue))
    (tIdx oIdx : Nat)
    (ht : position (fun h => h.as_str == some "timestamp") headers = some tIdx)
    (ho : position (fun h => h.as_str == some "original") headers = some oIdx)
    (hrows : ∀ row ∈ rows, goodRow tIdx oIdx row) :
    getWaybackCdxUrls (headers :: rows) =
      CdxResult.ok (rows.map (fun row =>
        "https://web.archive.org/web/" ++ strAt row tIdx ++ "/" ++ strAt row oIdx)) := by
  cases rows with
  | nil => simp [getWaybackCdxUrls]
  | cons r rs =>
    have hlen : ¬ (headers :: r :: rs).length ≤ 1 := by simp
    simp only [getWaybackCdxUrls, if_neg hlen, ht, ho]
    exact cdxRows_ok tIdx oIdx (r :: rs) hrows

/-- Witness for C7: the spec's concrete scenario, header `["timestamp","original"]`
with two data rows, yields exactly the two capture URLs in order. -/
theorem lister_by_name_concat_witness :
    getWaybackCdxUrls
        [[JValue.str "timestamp", JValue.str "original"],
         [JValue.str "20200101000000", JValue.str "http://example.com/a"],
         [JValue.str "20200601000000", JValue.str "http://example.com/b"]] =
      CdxResult.ok
        ["https://web.archive.org/web/20200101000000/http://example.com/a",
         "https://web.archive.org/web/20200601000000/http://example.com/b"] := by
  have h := lister_by_name_concat [JValue.str "timestamp", JValue.str "original"]
    [[JValue.str "20200101000000", JValue.str "http://example.com/a"],
     [JValue.str "20200601000000", JValue.str "http://example.com/b"]]
    0 1 (by decide) (by decide) (by decide)
  exact h.trans (by decide)

/-- C10: when every data row before some row is well formed but that row is too
short for the `timestamp` column position (or has a string timestamp but is too
short for the `original` column position), the lister panics via out-of-bounds
indexing instead of returning an error result. -/
theorem lister_short_row_panics (headers : List JValue) (good : List (List JValue))
    (bad : List JValue) (rest : List (List JValue)) (tIdx oIdx : Nat)
    (ht : position (fun h => h.as_str == some "timestamp") headers = some tIdx)
    (ho : position (fun h => h.as_str == some "original") headers = some oIdx)
    (hgood : ∀ row ∈ good, goodRow tIdx oIdx row)
    (hbad : bad[tIdx]? = none ∨ ((∃ s, bad[tIdx]? = some (JValue.str s)) ∧ bad[oIdx]? = none)) :
    getWaybackCdxUrls (headers :: (good ++ bad :: rest)) = CdxResult.panicked := by
  have hlen : ¬ (headers :: (good ++ bad :: rest)).length ≤ 1 := by simp
  simp only [getWaybackCdxUrls, if_neg hlen]
  cases hg : good ++ bad :: rest with
  | nil => exact absurd hg (by simp)
  | cons x xs =>
    rw [← hg, ht, ho]
    exact cdxRows_panics tIdx oIdx good bad rest hgood hbad

/-- Witness for C10: a one-element data row under header `["timestamp","original"]`
makes the lister panic (the `original` position 1 is out of bounds). -/
theorem lister_short_row_panics_witness :
    getWaybackCdxUrls
        [[JValue.str "timestamp", JValue.str "original"],
         [JValue.str "20200101000000"]] = CdxResult.panicked :=
  lister_short_row_panics [JValue.str "timestamp", JValue.str "original"] []
    [JValue.str "20200101000000"] [] 0 1 (by decide) (by decide) (by decide)
    (Or.inr ⟨⟨"20200101000000", rfl⟩, rfl⟩)

/-! ## String machinery

Embeddings of the `str` operations the program uses, written on `List Char`
so that concrete inputs evaluate and symbolic inputs admit induction. -/

/-- `<pat>.is_prefix_of` on character lists (Rust's pattern match at the head). -/
def isPrefixOfC : List Char → List Char → Bool
  | [], _ => true
  | _ :: _, [] => false
  | a :: as, b :: bs => (a == b) && isPrefixOfC as bs

/-- Whether `pat` occurs as a contiguous subsequence anywhere in `s`. -/
def occursIn (pat : List Char) : List Char → Bool
  | [] => isPrefixOfC pat []
  | c :: rest => isPrefixOfC pat (c :: rest) || occursIn pat rest

/-- Fuelled worker for `str::split` with a non-empty pattern: scans left to
right, splitting at each non-overlapping occurrence of `pat`.  Fuel at least
the length of the scanned list makes the fuel irrelevant. -/
def splitOnFuel (pat : List Char) : Nat → List Char → List (List Char)
  | _, [] => [[]]
  | 0, s => [s]
  | n + 1, c :: rest =>
    if isPrefixOfC pat (c :: rest) && !pat.isEmpty then
      [] :: splitOnFuel pat n (List.drop (pat.length - 1) rest)
    else
      match splitOnFuel pat n rest with
      | [] => [[c]]
      | l :: ls => (c :: l) :: ls

/-- Rust `str::split` on character lists (non-empty pattern). -/
def splitOnList (pat s : List Char) : List (List Char) := splitOnFuel pat s.length s

theorem splitOnFuel_fuel (pat : List Char) :
    ∀ (n m : Nat) (s : List Char), s.length ≤ n → s.length ≤ m →
      splitOnFuel pat n s = splitOnFuel pat m s := by
  intro n
  induction n with
  | zero =>
    intro m s hn _
    have : s = [] := List.length_eq_zero.mp (Nat.le_zero.mp hn)
    subst this
    cases m <;> rfl
  | succ n ih =>
    intro m s hn hm
    cases s with
    | nil => cases m <;> rfl
    | cons c rest =>
      cases m with
      | zero => exact absurd hm (by simp)
      | succ m =>
        simp only [splitOnFuel]
        have hrn : rest.length ≤ n := by simpa using hn
        have hrm : rest.length ≤ m := by simpa using hm
        by_cases hc : (isPrefixOfC pat (c :: rest) && !pat.isEmpty) = true
        · rw [if_pos hc, if_pos hc]
          have hd : (List.drop (pat.length - 1) rest).length ≤ n :=
            le_trans (by simp [List.length_drop]) hrn
          have hd' : (List.drop (pat.length - 1) rest).length ≤ m :=
            le_trans (by simp [List.length_drop]) hrm
          rw [ih n (List.drop (pat.length - 1) rest) hd (le_of_le_of_eq hd rfl)]
          rw [ih m (List.drop (pat.length - 1) rest) hd hd']
        · rw [if_neg hc, if_neg hc, ih m rest hrn hrm]

theorem splitOnList_nil (pat : List Char) : splitOnList pat [] = [[]] := rfl

theorem splitOnList_cons_neg (pat : List Char) (c : Char) (rest : List Char)
    (h : isPrefixOfC pat (c :: rest) = false) :
    splitOnList pat (c :: rest) =
      match splitOnList pat rest with
      | [] => [[c]]
      | l :: ls => (c :: l) :: ls := by
  simp only [splitOnList, List.length_cons, splitOnFuel, h, Bool.false_and, if_neg]
  rfl

theorem splitOnList_ne_nil (pat s : List Char) : splitOnList pat s ≠ [] := by
  unfold splitOnList
  generalize hn : s.length = n
  clear hn
  induction n generalizing s with
  | zero => cases s <;> simp [splitOnFuel]
  | succ n ih =>
    cases s with
    | nil => simp [splitOnFuel]
    | cons c rest =>
      simp only [splitOnFuel]
      by_cases hc : (isPrefixOfC pat (c :: rest) && !pat.isEmpty) = true
      · simp [hc]
      · rw [if_neg hc]
        cases hr : splitOnFuel pat n rest <;> simp

theorem isPrefixOfC_self_append (pat T : List Char) : isPrefixOfC pat (pat ++ T) = true := by
  induction pat with
  | nil => rfl
  | cons a as ih => simp [isPrefixOfC, ih]

theorem isPrefixOfC_take (pat : List Char) :
    ∀ s : List Char, isPrefixOfC pat s = isPrefixOfC pat (s.take pat.length) := by
  induction pat with
  | nil => intro s; rfl
  | cons a as ih =>
    intro s
    cases s with
    | nil => rfl
    | cons b bs => simp [isPrefixOfC, List.take_succ_cons, ih bs]

theorem splitOnList_match (pat : List Char) (hp : pat ≠ []) (T : List Char) :
    splitOnList pat (pat ++ T) = [] :: splitOnList pat T := by
  cases pat with
  | nil => exact absurd rfl hp
  | cons c pat' =>
    have hpre : isPrefixOfC (c :: pat') ((c :: pat') ++ T) = true :=
      isPrefixOfC_self_append (c :: pat') T
    have hcond : (isPrefixOfC (c :: pat') (c :: (pat' ++ T)) && !(c :: pat').isEmpty) = true := by
      simp only [List.isEmpty_cons, Bool.not_false, Bool.and_true]
      simpa [List.cons_append] using hpre
    simp only [splitOnList, List.cons_append, List.length_cons, splitOnFuel, List.append_eq]
    rw [if_pos hcond]
    have hdrop : List.drop (pat'.length + 1 - 1) (pat' ++ T) = T := by
      rw [Nat.add_sub_cancel]
      exact List.drop_left pat' T
    rw [hdrop]
    have hfuel := splitOnFuel_fuel (c :: pat') (pat' ++ T).length T.length T
      (by simp) (le_refl _)
    rw [hfuel]

theorem splitOnList_single_sep (ch : Char) (A B : List Char) (hA : ∀ c ∈ A, c ≠ ch) :
    splitOnList [ch] (A ++ ch :: B) = A :: splitOnList [ch] B := by
  induction A with
  | nil => simpa using splitOnList_match [ch] (by simp) B
  | cons a A' ih =>
    have ha : a ≠ ch := hA a (List.mem_cons_self a A')
    have hpre : isPrefixOfC [ch] (a :: (A' ++ ch :: B)) = false := by
      simp [isPrefixOfC]
      exact fun h => absurd h.symm ha
    rw [List.cons_append, splitOnList_cons_neg [ch] a (A' ++ ch :: B) hpre,
      ih (fun c hc => hA c (List.mem_cons_of_mem a hc))]

theorem splitOnList_no_occur (pat s : List Char) (h : occursIn pat s = false) :
    splitOnList pat s = [s] := by
  induction s with
  | nil => rfl
  | cons c rest ih =>
    simp only [occursIn, Bool.or_eq_false_iff] at h
    rw [splitOnList_cons_neg pat c rest h.1, ih h.2]

theorem splitOnList_first_occur (pat : List Char) (hp : pat ≠ []) :
    ∀ (pre T : List Char),
      (∀ k < pre.length,
        isPrefixOfC pat (List.take pat.length (List.drop k (pre ++ pat))) = false) →
      splitOnList pat (pre ++ (pat ++ T)) = pre :: splitOnList pat T := by
  intro pre
  induction pre with
  | nil => intro T _; simpa using splitOnList_match pat hp T
  | cons c pre' ih =>
    intro T H
    have hhead : isPrefixOfC pat (c :: (pre' ++ (pat ++ T))) = false := by
      have h0 := H 0 (by simp)
      rw [isPrefixOfC_take pat]
      have hassoc : c :: (pre' ++ (pat ++ T)) = ((c :: pre') ++ pat) ++ T := by simp
      rw [hassoc, List.take_append_of_le_length
        (by simp only [List.length_append, List.length_cons]; omega)]
      simpa using h0
    rw [List.cons_append, splitOnList_cons_neg pat c (pre' ++ (pat ++ T)) hhead,
      ih T (fun k hk => by
        have := H (k + 1) (by simpa using Nat.succ_lt_succ hk)
        simpa [List.cons_append] using this)]

/-! ## Filename derivation (`download_html`, main.rs lines 189-199) -/

/-- `str::replace(['/', ':'], "_")` on character lists. -/
def sanitizeChars (l : List Char) : List Char :=
  l.map (fun c => if c = '/' ∨ c = ':' then '_' else c)

/-- `str::replace(['/', ':'], "_")` on strings. -/
def sanitize (s : String) : String := String.mk (sanitizeChars s.toList)

/-- The characters up to the first query (`?`) or fragment (`#`) delimiter:
per the WHATWG URL standard followed by the `url` crate, the path ends where
the query or fragment begins. -/
def takeUntilDelim : List Char → List Char
  | [] => []
  | c :: rest => if c = '?' ∨ c = '#' then [] else c :: takeUntilDelim rest

/-- The path component of an authority-plus-path-plus-query/fragment suffix:
everything from the first `'/'` up to the first `'?'`/`'#'`, and `"/"` when
the authority is followed by no `'/'` before the query/fragment or the end
(a URL such as `https://host` or `https://host?q` serialises with path `/`). -/
def pathOfAuth : List Char → List Char
  | [] => ['/']
  | c :: rest =>
    if c = '?' ∨ c = '#' then ['/']
    else if c = '/' then '/' :: takeUntilDelim rest
    else pathOfAuth rest

/-- A character that the `url` crate's path serialization passes through
verbatim and that carries no special meaning inside an `http(s)` path:
printable ASCII (excluding controls, space and non-ASCII, which get
percent-encoded), minus the WHATWG path percent-encode set (`"`, `<`, `>`,
`` ` ``, `\x7b`, `\x7d`), the query/fragment delimiters `?` and `#`, the
backslash (which special schemes treat as a path separator), and `%` (keeping
percent-decoding questions out of scope).  `/` and `:` are allowed — they are
serialized verbatim; segment structure is constrained separately by
`noDotSegments`. -/
def plainPathChar (c : Char) : Bool :=
  decide ('!' ≤ c) && decide (c ≤ '~')
    && c != '\x22' && c != '<' && c != '>' && c != '\x60' && c != '\x7b' && c != '\x7d'
    && c != '?' && c != '#' && c != '\\' && c != '%'

/-- No `.` or `..` path segment: the `url` crate removes such dot segments
when parsing, which `urlPath` does not model, so theorems about it quantify
only over inputs without them. -/
def noDotSegments (l : List Char) : Prop :=
  ∀ seg ∈ splitOnList ['/'] l, seg ≠ ['.'] ∧ seg ≠ ['.', '.']

instance (l : List Char) : Decidable (noDotSegments l) :=
  List.decidableBAll _ (splitOnList ['/'] l)

/-- Model of the `url` crate's `Url::parse(u)` followed by `.path()` for the
absolute `http`/`https` URLs this program constructs.  Modelled: the scheme
check (a string without an `http(s)://` scheme is a parse error, `none`,
matching `Url::parse` rejecting relative URLs), the path starting at the
first `/` after the authority, and termination of the path at the first `?`
or `#`.  Not modelled, and excluded from every theorem's quantified domain
via `plainPathChar`/`noDotSegments` hypotheses: percent-encoding of
non-plain characters, `\` as a path separator, and removal of `.`/`..` dot
segments.  On the remaining domain the crate serialises the path verbatim
(empty segments are preserved; `/` and `:` are not percent-encoded). -/
def urlPath (u : String) : Option String :=
  if isPrefixOfC "https://".toList u.toList then
    some (String.mk (pathOfAuth (u.toList.drop 8)))
  else if isPrefixOfC "http://".toList u.toList then
    some (String.mk (pathOfAuth (u.toList.drop 7)))
  else none

/-- `url.split("/web/").nth(1).and_then(|s| s.split('/').next()).unwrap_or("unknown")`. -/
def extractTimestamp (url : String) : String :=
  match (splitOnList "/web/".toList url.toList)[1]? with
  | none => "unknown"
  | some s =>
    match (splitOnList ['/'] s).head? with
    | none => "unknown"
    | some t => String.mk t

/-- An HTTP response as far as `download_html` consumes it: a status code and
the body text.  The status is carried so that theorems can state what the code
does (and does not do) with it. -/
structure HttpResponse where
  status : Nat
  body : String
deriving DecidableEq

/-- Result of `client.get(url).send().await`: a response (whatever its HTTP
status — `reqwest` does not error on non-success statuses) or a transport
error (connection failure, timeout). -/
inductive SendResult where
  | ok (r : HttpResponse)
  | transportError (e : String)
deriving DecidableEq

/-- Injected effect results for one `download_html` call: the send outcome,
and the body-read / file-create / file-write failures (`none` = success). -/
structure DlEnv where
  send : SendResult
  textErr : Option String
  createErr : Option String
  writeErr : Option String
deriving DecidableEq

/-- `download_html` (main.rs lines 173-212) over injected effect results.
The HTTP status of a received response is never inspected; the filename is
`<timestamp>_<sanitized full-URL path>.html`; the return value is the
filename. -/
def download_html (url output_dir : String) (env : DlEnv) : Except String String :=
  match env.send with
  | .transportError e => .error ("Failed to fetch URL: " ++ e)
  | .ok _resp =>
    match env.textErr with
    | some e => .error ("Failed to read response: " ++ e)
    | none =>
      let timestamp := extractTimestamp url
      match urlPath url with
      | none => .error "relative URL without a base"
      | some p =>
        let filename := timestamp ++ "_" ++ sanitize p ++ ".html"
        let _filepath := output_dir ++ "/" ++ filename
        match env.createErr with
        | some e => .error ("Failed to create file: " ++ e)
        | none =>
          match env.writeErr with
          | some e => .error ("Failed to write file: " ++ e)
          | none => .ok filename

example : extractTimestamp "https://web.archive.org/web/20200101000000/http://example.com/a"
    = "20200101000000" := by decide

example : urlPath "https://web.archive.org/web/20200101000000/http://example.com/a"
    = some "/web/20200101000000/http://example.com/a" := by decide

instance : DecidableEq (Except String String) := fun a b =>
  match a, b with
  | .ok x, .ok y => if h : x = y then isTrue (by rw [h]) else isFalse (by simp [h])
  | .error x, .error y => if h : x = y then isTrue (by rw [h]) else isFalse (by simp [h])
  | .ok _, .error _ => isFalse (by simp)
  | .error _, .ok _ => isFalse (by simp)

example : download_html "https://web.archive.org/web/20200101000000/http://example.com/a"
    "out" ⟨SendResult.ok ⟨200, "x"⟩, none, none, none⟩
    = Except.ok "20200101000000__web_20200101000000_http___example.com_a.html" := by decide

/-! ## The sequential skeleton of `main` (main.rs lines 40-121)

Download outcomes are injected per target index via `denv`; the aggregate
failure list collects, in order, the URLs whose `download_html` returned an
error — exactly the pushes into the mutex-guarded `failed_urls` vector.
(Completion-order nondeterminism of the concurrent loop is treated by the
transition system further below; the skeleton fixes dispatch order, which is
enough for the claims about `main`'s error routing and reporting.) -/

/-- The worker bodies' effect on `failed_urls`, in index order: a target URL is
appended exactly when its `download_html` call returns an error. -/
def collectFailed (outDir : String) (denv : Nat → DlEnv) : Nat → List String → List String
  | _, [] => []
  | i, u :: rest =>
    match download_html u outDir (denv i) with
    | .ok _ => collectFailed outDir denv (i + 1) rest
    | .error _ => u :: collectFailed outDir denv (i + 1) rest

/-- `Vec::join("\n")`. -/
def joinNewline : List String → String
  | [] => ""
  | [u] => u
  | u :: rest => u ++ "\n" ++ joinNewline rest

/-- The Failure Reporter (main.rs lines 107-117): nothing is written when the
failure list is empty; otherwise the newline-joined list is written (once) to
`<output_dir>/failed_urls.txt`, the write replacing any prior content
(`fs::write` truncates). -/
def failureReport (outDir : String) (failed : List String) : Option (String × String) :=
  if failed.isEmpty then none
  else some (outDir ++ "/failed_urls.txt", joinNewline failed)

/-- The lines of a report file, i.e. Rust `str::split('\n')`. -/
def linesOf (s : String) : List String :=
  (splitOnList ['\n'] s.toList).map (fun l => String.mk l)

/-- Outcome of one `main` run.  `setupFailed`, `listingFailed` and
`reportFailed` are the `Err` returns of `main` (non-zero process exit);
`listerPanicked` is the process aborting on the lister's out-of-bounds
indexing; `noArchivedUrls` and `completed` are `Ok(())` (zero exit).
`completed` records the failure list and the report write, if any. -/
inductive RunOutcome where
  | setupFailed (msg : String)
  | listingFailed (msg : String)
  | listerPanicked
  | noArchivedUrls
  | reportFailed (failed : List String) (msg : String)
  | completed (failed : List String) (report : Option (String × String))
deriving DecidableEq

/-- The tail of `main` after all workers were awaited (main.rs lines 107-121):
write the failure report when there are failures, propagating a write error
with `?`. -/
def finishRun (outDir : String) (failed : List String) (writeRes : Except String Unit) :
    RunOutcome :=
  match failureReport outDir failed with
  | none => RunOutcome.completed failed none
  | some pc =>
    match writeRes with
    | .error m => RunOutcome.reportFailed failed m
    | .ok _ => RunOutcome.completed failed (some pc)

/-- `main` over injected effect results: output-directory creation, HTTP client
construction, the CDX fetch+decode, the per-target download environments, and
the report write. -/
def mainRun (outDir : String) (dirCreate clientBuild : Except String Unit)
    (cdxFetch : Except String (List (List JValue)))
    (denv : Nat → DlEnv) (writeRes : Except String Unit) : RunOutcome :=
  match dirCreate with
  | .error e => RunOutcome.setupFailed e
  | .ok _ =>
    match clientBuild with
    | .error e => RunOutcome.setupFailed e
    | .ok _ =>
      match cdxFetch with
      | .error e => RunOutcome.listingFailed e
      | .ok data =>
        match getWaybackCdxUrls data with
        | .panicked => RunOutcome.listerPanicked
        | .err e => RunOutcome.listingFailed e
        | .ok urls =>
          if urls.isEmpty then RunOutcome.noArchivedUrls
          else finishRun outDir (collectFailed outDir denv 0 urls) writeRes

/-- Whether a run outcome makes the process exit non-zero (an `Err` from
`main`, or a panic abort). -/
def exitNonZero : RunOutcome → Bool
  | RunOutcome.setupFailed _ => true
  | RunOutcome.listingFailed _ => true
  | RunOutcome.listerPanicked => true
  | RunOutcome.reportFailed _ _ => true
  | RunOutcome.noArchivedUrls => false
  | RunOutcome.completed _ _ => false

/-- Whether an injected effect result is a success. -/
def exOk {α : Type} : Except String α → Bool
  | .ok _ => true
  | .error _ => false

theorem strToList_append (a b : String) : (a ++ b).toList = a.toList ++ b.toList := by
  rcases a with ⟨la⟩
  rcases b with ⟨lb⟩
  rfl

theorem strMk_toList (s : String) : String.mk s.toList = s := rfl

theorem occursIn_single_eq_false (ch : Char) (l : List Char) (h : ∀ c ∈ l, c ≠ ch) :
    occursIn [ch] l = false := by
  induction l with
  | nil => rfl
  | cons c rest ih =>
    have hc : c ≠ ch := h c (List.mem_cons_self c rest)
    simp only [occursIn, isPrefixOfC, Bool.or_eq_false_iff]
    constructor
    · simp
      exact fun hq => absurd hq.symm hc
    · exact ih (fun c' hc' => h c' (List.mem_cons_of_mem c hc'))

theorem takeUntilDelim_all_plain (l : List Char) (h : ∀ c ∈ l, plainPathChar c = true) :
    takeUntilDelim l = l := by
  induction l with
  | nil => rfl
  | cons c rest ih =>
    have hc := h c (List.mem_cons_self c rest)
    have hnd : ¬ (c = '?' ∨ c = '#') := by
      rintro (rfl | rfl)
      · exact absurd hc (by decide)
      · exact absurd hc (by decide)
    simp only [takeUntilDelim, if_neg hnd]
    rw [ih (fun c' hc' => h c' (List.mem_cons_of_mem c hc'))]

theorem pathOfAuth_skip (A : List Char) (hA : ∀ c ∈ A, c ≠ '/' ∧ c ≠ '?' ∧ c ≠ '#')
    (X : List Char) :
    pathOfAuth (A ++ '/' :: X) = '/' :: takeUntilDelim X := by
  induction A with
  | nil => simp [pathOfAuth]
  | cons a A' ih =>
    obtain ⟨h1, h2, h3⟩ := hA a (List.mem_cons_self a A')
    have hnd : ¬ (a = '?' ∨ a = '#') := by
      rintro (h | h)
      · exact h2 h
      · exact h3 h
    simp only [List.cons_append, pathOfAuth, if_neg hnd, if_neg h1]
    exact ih (fun c hc => hA c (List.mem_cons_of_mem a hc))

theorem linesOf_joinNewline (failed : List String) (hne : failed ≠ [])
    (h : ∀ u ∈ failed, ∀ c ∈ u.toList, c ≠ '\n') :
    linesOf (joinNewline failed) = failed := by
  induction failed with
  | nil => exact absurd rfl hne
  | cons u rest ih =>
    cases rest with
    | nil =>
      have hu : occursIn ['\n'] u.toList = false :=
        occursIn_single_eq_false '\n' u.toList (h u (List.mem_cons_self u []))
      simp only [joinNewline, linesOf, splitOnList_no_occur ['\n'] u.toList hu,
        List.map_cons, List.map_nil, strMk_toList]
    | cons v rest' =>
      have hu : ∀ c ∈ u.toList, c ≠ '\n' := h u (List.mem_cons_self u (v :: rest'))
      have hj : joinNewline (u :: v :: rest') = u ++ "\n" ++ joinNewline (v :: rest') := rfl
      have htl : (u ++ "\n" ++ joinNewline (v :: rest')).toList
          = u.toList ++ '\n' :: (joinNewline (v :: rest')).toList := by
        rw [strToList_append, strToList_append, List.append_assoc]
        rfl
      have hrest := ih (by simp) (fun w hw => h w (List.mem_cons_of_mem u hw))
      simp only [hj, linesOf, htl, splitOnList_single_sep '\n' u.toList _ hu, List.map_cons,
        strMk_toList]
      simp only [linesOf] at hrest
      rw [hrest]

/-- C5: the Failure Reporter writes nothing for an empty failure list; for a
non-empty list it writes, at most once, the newline-joined entries to the
fixed-name file `failed_urls.txt` in the output directory (the write replaces
any prior content), and the written content has exactly one line per entry,
matching the entries, whenever the entries are newline-free (URLs are). -/
theorem reporter_contract (outDir : String) (failed : List String) :
    (failed = [] → failureReport outDir failed = none)
    ∧ (failed ≠ [] →
        failureReport outDir failed = some (outDir ++ "/failed_urls.txt", joinNewline failed))
    ∧ (failed ≠ [] → (∀ u ∈ failed, ∀ c ∈ u.toList, c ≠ '\n') →
        linesOf (joinNewline failed) = failed
        ∧ (linesOf (joinNewline failed)).length = failed.length) := by
  refine ⟨fun h => by simp [failureReport, h], fun h => by simp [failureReport, h],
    fun h hn => ?_⟩
  have heq := linesOf_joinNewline failed h hn
  exact ⟨heq, by rw [heq]⟩

/-- Witness for C5 at a concrete failure list (and the empty list). -/
theorem reporter_contract_witness :
    failureReport "out" ["a", "b"] = some ("out/failed_urls.txt", "a\nb")
    ∧ linesOf "a\nb" = ["a", "b"]
    ∧ failureReport "out" [] = none := by
  have h := reporter_contract "out" ["a", "b"]
  have h0 := reporter_contract "out" []
  refine ⟨(h.2.1 (by decide)).trans (by decide), ?_, h0.1 rfl⟩
  have h3 := (h.2.2 (by decide) (by decide)).1
  exact (by decide : joinNewline ["a", "b"] = "a\nb") ▸ h3

/-- A download environment in which every fetch/persist step succeeds. -/
def denvOkAll : Nat → DlEnv := fun _ => ⟨SendResult.ok ⟨200, ""⟩, none, none, none⟩

/-- C6: an index response with zero data rows (only the header row, or empty)
yields an empty sequence from the lister — not an error — and the run then
reports the "no archived URLs found" outcome, which exits zero. -/
theorem empty_index_no_error (data : List (List JValue)) (h : data.length ≤ 1)
    (outDir : String) (denv : Nat → DlEnv) (wr : Except String Unit) :
    getWaybackCdxUrls data = CdxResult.ok []
    ∧ mainRun outDir (Except.ok ()) (Except.ok ()) (Except.ok data) denv wr
        = RunOutcome.noArchivedUrls
    ∧ exitNonZero RunOutcome.noArchivedUrls = false := by
  have h1 : getWaybackCdxUrls data = CdxResult.ok [] := by simp [getWaybackCdxUrls, h]
  refine ⟨h1, ?_, rfl⟩
  simp [mainRun, h1]

/-- Witness for C6: a header-only index response. -/
theorem empty_index_no_error_witness :
    getWaybackCdxUrls [[JValue.str "timestamp", JValue.str "original"]] = CdxResult.ok []
    ∧ mainRun "out" (Except.ok ()) (Except.ok ())
        (Except.ok [[JValue.str "timestamp", JValue.str "original"]]) denvOkAll (Except.ok ())
        = RunOutcome.noArchivedUrls
    ∧ exitNonZero RunOutcome.noArchivedUrls = false :=
  empty_index_no_error [[JValue.str "timestamp", JValue.str "original"]] (by decide)
    "out" denvOkAll (Except.ok ())

/-- The capture URL the spec's concrete scenario produces for row
`["20200101000000", "http://example.com/a"]`. -/
def exUrl : String := "https://web.archive.org/web/20200101000000/http://example.com/a"

/-- The filename `download_html` actually derives for `exUrl`. -/
def exFile : String := "20200101000000__web_20200101000000_http___example.com_a.html"

/-- A one-data-row index response producing `[exUrl]`. -/
def cdxOneRow : List (List JValue) :=
  [[JValue.str "timestamp", JValue.str "original"],
   [JValue.str "20200101000000", JValue.str "http://example.com/a"]]

/-- A download environment whose fetch yields an HTTP 404 response. -/
def denv404 : Nat → DlEnv := fun _ => ⟨SendResult.ok ⟨404, "Not Found"⟩, none, none, none⟩

/-- Counterexample to C3: a fetch completing with HTTP status 404 is NOT
recorded as a failure — the run completes with an empty FailureLog (and the
body is persisted as a success), contradicting the claim that the target would
be recorded in the FailureLog. -/
theorem fetch_status_failure_counterexample :
    getWaybackCdxUrls cdxOneRow = CdxResult.ok [exUrl]
    ∧ mainRun "out" (Except.ok ()) (Except.ok ()) (Except.ok cdxOneRow) denv404 (Except.ok ())
        = RunOutcome.completed [] none
    ∧ ([] : List String) ≠ [exUrl] := by
  refine ⟨by decide, by decide, by decide⟩

/-- C3 amended: `download_html` never inspects the HTTP status of a received
response: a response with ANY status (404 included) is persisted and returned
as a success, and the target is not added to the failure list; only transport
errors (send/body-read failures) are failures for the target.  Consequently no
distinction is made among HTTP statuses, rather than no distinction between
HTTP-status failures and transport failures. -/
theorem fetch_status_ignored (st : Nat) (body dir e : String) :
    download_html exUrl dir ⟨SendResult.ok ⟨st, body⟩, none, none, none⟩ = Except.ok exFile
    ∧ download_html exUrl dir ⟨SendResult.transportError e, none, none, none⟩
        = Except.error ("Failed to fetch URL: " ++ e)
    ∧ collectFailed dir (fun _ => ⟨SendResult.ok ⟨st, body⟩, none, none, none⟩) 0 [exUrl] = []
    ∧ collectFailed dir (fun _ => ⟨SendResult.transportError e, none, none, none⟩) 0 [exUrl]
        = [exUrl] := by
  refine ⟨rfl, rfl, rfl, rfl⟩

/-- Witness for C3's amended statement at status 404. -/
theorem fetch_status_ignored_witness :
    download_html exUrl "out" ⟨SendResult.ok ⟨404, "nf"⟩, none, none, none⟩
      = Except.ok exFile :=
  (fetch_status_ignored 404 "nf" "out" "x").1

/-- The filename as the spec's words describe it (C8): the timestamp joined to
the sanitized ORIGINAL-URL path segment.  Stated from the spec for comparison
with the code's derivation. -/
def spec_filename (timestamp originalUrlPath : String) : String :=
  timestamp ++ "_" ++ sanitize originalUrlPath ++ ".html"

/-- Counterexample to C8: for the spec's own example URL the code derives the
filename from the FULL capture-URL path (`/web/<ts>/<original-url>`), not from
the original URL's path segment (`/a`), so the derived name differs from the
spec's `<timestamp>_<sanitized original path>.html`. -/
theorem filename_not_original_path :
    download_html exUrl "out" ⟨SendResult.ok ⟨200, "x"⟩, none, none, none⟩ = Except.ok exFile
    ∧ spec_filename "20200101000000" "/a" = "20200101000000__a.html"
    ∧ exFile ≠ "20200101000000__a.html" := by
  refine ⟨rfl, rfl, by decide⟩

/-- C8 amended: the filename is derived deterministically as
`<timestamp>_<sanitized path>.html`, where the timestamp is the path component
immediately following the `/web/` marker, the placeholder `unknown` replaces it
when the marker is absent, and the sanitized path is the path of the FULL
capture URL (`/web/<timestamp>/<original-url>`) — not merely the original
URL's path segment — with `/` and `:` replaced by underscores.  The statement
quantifies over the domain on which `urlPath` is an exact model of
`Url::parse().path()`: timestamp and original made of `plainPathChar`s (so no
query/fragment delimiters, backslashes, percent signs, or characters the
`url` crate percent-encodes) and containing no `.`/`..` path segments (which
the crate would remove); `hplain_ts`/`hplain_orig`/`hdot_ts`/`hdot_orig`
delimit that domain. -/
theorem filename_derivation_amended (ts orig body dir : String) (st : Nat)
    (h2 : ∀ c ∈ ts.toList, c ≠ '/')
    (h3 : occursIn "/web/".toList (ts.toList ++ '/' :: orig.toList) = false)
    (hplain_ts : ∀ c ∈ ts.toList, plainPathChar c = true)
    (hplain_orig : ∀ c ∈ orig.toList, plainPathChar c = true)
    (hdot_ts : ts.toList ≠ ['.'] ∧ ts.toList ≠ ['.', '.'])
    (hdot_orig : noDotSegments orig.toList) :
    download_html ("https://web.archive.org/web/" ++ ts ++ "/" ++ orig) dir
        ⟨SendResult.ok ⟨st, body⟩, none, none, none⟩
      = Except.ok (ts ++ "_" ++ sanitize ("/web/" ++ ts ++ "/" ++ orig) ++ ".html")
    ∧ (∀ u : String, occursIn "/web/".toList u.toList = false →
        extractTimestamp u = "unknown") := by
  have hto : ("https://web.archive.org/web/" ++ ts ++ "/" ++ orig).toList
      = "https://web.archive.org".toList
          ++ ("/web/".toList ++ (ts.toList ++ '/' :: orig.toList)) := by
    rw [strToList_append, strToList_append, strToList_append,
      (by decide : ("https://web.archive.org/web/").toList
        = "https://web.archive.org".toList ++ "/web/".toList)]
    simp [List.append_assoc]
  have hH : ∀ k < ("https://web.archive.org".toList).length,
      isPrefixOfC "/web/".toList
        (List.take ("/web/".toList).length
          (List.drop k ("https://web.archive.org".toList ++ "/web/".toList))) = false := by
    decide
  have hfo := splitOnList_first_occur "/web/".toList (by decide)
    "https://web.archive.org".toList (ts.toList ++ '/' :: orig.toList) hH
  have hno := splitOnList_no_occur "/web/".toList (ts.toList ++ '/' :: orig.toList) h3
  have hts : extractTimestamp ("https://web.archive.org/web/" ++ ts ++ "/" ++ orig) = ts := by
    unfold extractTimestamp
    rw [hto, hfo, hno]
    simp only [List.getElem?_cons_succ, List.getElem?_cons_zero]
    rw [splitOnList_single_sep '/' ts.toList orig.toList h2]
    simp only [List.head?_cons]
    exact strMk_toList ts
  have hpathlist : ("/web/" ++ ts ++ "/" ++ orig).toList
      = '/' :: ("web/".toList ++ (ts.toList ++ '/' :: orig.toList)) := by
    rw [strToList_append, strToList_append, strToList_append,
      (by decide : ("/web/").toList = '/' :: "web/".toList)]
    simp [List.append_assoc]
  have hpath : urlPath ("https://web.archive.org/web/" ++ ts ++ "/" ++ orig)
      = some ("/web/" ++ ts ++ "/" ++ orig) := by
    have hhttps : isPrefixOfC "https://".toList
        ("https://web.archive.org/web/" ++ ts ++ "/" ++ orig).toList = true := by
      rw [hto, isPrefixOfC_take, ← List.append_assoc,
        List.take_append_of_le_length (by decide)]
      decide
    unfold urlPath
    rw [if_pos hhttps, hto]
    have hdrop : ("https://web.archive.org".toList
          ++ ("/web/".toList ++ (ts.toList ++ '/' :: orig.toList))).drop 8
        = "web.archive.org".toList
            ++ ('/' :: ("web/".toList ++ (ts.toList ++ '/' :: orig.toList))) := by
      rw [← List.append_assoc, List.drop_append_of_le_length (by decide),
        (by decide : List.drop 8 ("https://web.archive.org".toList ++ "/web/".toList)
          = "web.archive.org".toList ++ ('/' :: "web/".toList))]
      simp [List.append_assoc]
    have hplain : ∀ c ∈ ("web/".toList ++ (ts.toList ++ '/' :: orig.toList)),
        plainPathChar c = true := by
      intro c hc
      rw [List.mem_append] at hc
      rcases hc with hc | hc
      · exact (by decide : ∀ c ∈ "web/".toList, plainPathChar c = true) c hc
      · rw [List.mem_append] at hc
        rcases hc with hc | hc
        · exact hplain_ts c hc
        · rw [List.mem_cons] at hc
          rcases hc with rfl | hc
          · decide
          · exact hplain_orig c hc
    rw [hdrop, pathOfAuth_skip "web.archive.org".toList (by decide) _,
      takeUntilDelim_all_plain _ hplain, ← hpathlist, strMk_toList]
  constructor
  · simp only [download_html]
    rw [hts, hpath]
  · intro u hu
    unfold extractTimestamp
    rw [splitOnList_no_occur "/web/".toList u.toList hu]
    rfl

/-- Witness for C8's amended statement at the spec's second example row. -/
theorem filename_derivation_amended_witness :
    download_html ("https://web.archive.org/web/" ++ "20200601000000" ++ "/"
        ++ "http://example.com/b") "out" ⟨SendResult.ok ⟨200, ""⟩, none, none, none⟩
      = Except.ok ("20200601000000" ++ "_"
          ++ sanitize ("/web/" ++ "20200601000000" ++ "/" ++ "http://example.com/b")
          ++ ".html") :=
  (filename_derivation_amended "20200601000000" "http://example.com/b" "" "out" 200
    (by decide) (by decide) (by decide) (by decide) (by decide) (by decide)).1

/-- C9: the process exits non-zero only on setup errors (directory creation,
client construction), listing-stage failures (error result or panic), or a
failure to write the failure report when failures exist — never because
individual downloads failed (any mix of download outcomes with the other
effects succeeding exits zero); and a report-write failure surfaces as the
run's final error while still carrying the already-computed failure list. -/
theorem main_exit_routing (outDir : String) (denv : Nat → DlEnv) :
    (∀ (d c wr : Except String Unit) (x : Except String (List (List JValue))),
      exitNonZero (mainRun outDir d c x denv wr) = true →
        exOk d = false ∨ exOk c = false ∨ exOk x = false
        ∨ (∃ data, x = Except.ok data ∧ ∀ urls, getWaybackCdxUrls data ≠ CdxResult.ok urls)
        ∨ (∃ data urls, x = Except.ok data ∧ getWaybackCdxUrls data = CdxResult.ok urls
            ∧ collectFailed outDir denv 0 urls ≠ [] ∧ exOk wr = false))
    ∧ (∀ (data : List (List JValue)) (urls : List String),
        getWaybackCdxUrls data = CdxResult.ok urls →
        exitNonZero (mainRun outDir (Except.ok ()) (Except.ok ()) (Except.ok data) denv
          (Except.ok ())) = false)
    ∧ (∀ (data : List (List JValue)) (urls : List String) (m : String),
        getWaybackCdxUrls data = CdxResult.ok urls →
        collectFailed outDir denv 0 urls ≠ [] →
        mainRun outDir (Except.ok ()) (Except.ok ()) (Except.ok data) denv (Except.error m)
          = RunOutcome.reportFailed (collectFailed outDir denv 0 urls) m) := by
  refine ⟨?_, ?_, ?_⟩
  · intro d c wr x h
    cases d with
    | error e => exact Or.inl rfl
    | ok u =>
      cases c with
      | error e => exact Or.inr (Or.inl rfl)
      | ok u' =>
        cases x with
        | error e => exact Or.inr (Or.inr (Or.inl rfl))
        | ok data =>
          rcases hga : getWaybackCdxUrls data with urls | e | _
          · by_cases he : urls.isEmpty
            · exfalso
              simp only [mainRun, hga, if_pos he, exitNonZero] at h
              exact Bool.false_ne_true h
            · simp only [mainRun, hga, if_neg he] at h
              rcases hc : collectFailed outDir denv 0 urls with _ | ⟨f, fs⟩
              · exfalso
                simp only [finishRun, failureReport, hc, List.isEmpty_nil, if_pos,
                  exitNonZero] at h
                exact Bool.false_ne_true h
              · cases wr with
                | ok u'' =>
                  exfalso
                  simp only [finishRun, failureReport, hc, exitNonZero] at h
                  revert h
                  simp
                | error m =>
                  refine Or.inr (Or.inr (Or.inr (Or.inr ⟨data, urls, rfl, hga, ?_, rfl⟩)))
                  rw [hc]
                  simp
          · exact Or.inr (Or.inr (Or.inr (Or.inl ⟨data, rfl,
              fun urls h' => by rw [hga] at h'; cases h'⟩)))
          · exact Or.inr (Or.inr (Or.inr (Or.inl ⟨data, rfl,
              fun urls h' => by rw [hga] at h'; cases h'⟩)))
  · intro data urls hga
    simp only [mainRun, hga]
    by_cases he : urls.isEmpty
    · simp [he, exitNonZero]
    · simp only [if_neg he]
      by_cases hf : (collectFailed outDir denv 0 urls).isEmpty
      · simp [finishRun, failureReport, hf, exitNonZero]
      · simp [finishRun, failureReport, hf, exitNonZero]
  · intro data urls m hga hne
    have hu : ¬ urls.isEmpty := by
      intro h
      rw [List.isEmpty_iff] at h
      subst h
      exact hne rfl
    simp only [mainRun, hga, if_neg hu]
    have hf : ¬ (collectFailed outDir denv 0 urls).isEmpty := by
      rw [List.isEmpty_iff]
      exact hne
    simp [finishRun, failureReport, hf]

/-- A download environment in which every fetch fails with a transport error. -/
def denvFailAll : Nat → DlEnv :=
  fun _ => ⟨SendResult.transportError "connection reset", none, none, none⟩

/-- Witness for C9: with every download failing, the run still exits zero when
the report write succeeds, and a failing report write surfaces as
`reportFailed` carrying the computed failure list. -/
theorem main_exit_routing_witness :
    exitNonZero (mainRun "out" (Except.ok ()) (Except.ok ()) (Except.ok cdxOneRow) denvFailAll
        (Except.ok ())) = false
    ∧ mainRun "out" (Except.ok ()) (Except.ok ()) (Except.ok cdxOneRow) denvFailAll
        (Except.error "disk full")
      = RunOutcome.reportFailed (collectFailed "out" denvFailAll 0 [exUrl]) "disk full" := by
  refine ⟨(main_exit_routing "out" denvFailAll).2.1 cdxOneRow [exUrl] (by decide), ?_⟩
  have h := (main_exit_routing "out" denvFailAll).2.2 cdxOneRow [exUrl] "disk full"
    (by decide) (by decide)
  exact h

/-! ## The concurrent download loop (main.rs lines 73-106)

Each spawned worker acquires one semaphore permit (blocking while none is
free), runs its download, pushes its URL onto the mutex-guarded failure list
exactly when the download errored, and releases the permit on EVERY exit path
— the permit is an RAII guard dropped even when the task unwinds.  `main`
awaits every join handle, discarding join errors (`let _ = task.await`).

The model: each target carries an injected `WorkResult` — its download either
succeeds, fails (the two `download_html` outcomes), or the worker terminates
abnormally after admission without recording anything (a panic/cancellation
inside the worker body, whose JoinError `main` discards).  A `Step` either
admits a not-yet-started worker when a permit is free, or completes a running
worker, releasing its permit unconditionally and appending its URL to the
failure list exactly when its result is `failure`. -/

/-- How one worker's unit of work ends. -/
inductive WorkResult where
  | success
  | failure
  | abnormal
deriving DecidableEq

/-- One target together with its injected download outcome. -/
structure Job where
  url : String
  result : WorkResult
deriving DecidableEq

/-- Progress of one spawned worker: waiting for a permit, holding a permit
while downloading, or finished (permit released). -/
inductive Phase where
  | notStarted
  | running
  | done
deriving DecidableEq

/-- A worker task: its target, its injected outcome and its progress. -/
structure WTask where
  url : String
  result : WorkResult
  phase : Phase
deriving DecidableEq

/-- Forget a task's progress. -/
def WTask.toJob (t : WTask) : Job := ⟨t.url, t.result⟩

/-- State of the orchestration loop: free permits of the semaphore, the worker
tasks, and the mutex-guarded failure list. -/
structure OrchState where
  sem : Nat
  tasks : List WTask
  failed : List String
deriving DecidableEq

/-- Replace the phase of the `i`-th task. -/
def setTaskPhase : List WTask → Nat → Phase → List WTask
  | [], _, _ => []
  | t :: ts, 0, p => { t with phase := p } :: ts
  | t :: ts, i + 1, p => t :: setTaskPhase ts i p

/-- Initial state: `N` free permits, every worker spawned but not yet
admitted, no failures recorded. -/
def initState (N : Nat) (jobs : List Job) : OrchState :=
  ⟨N, jobs.map (fun j => ⟨j.url, j.result, Phase.notStarted⟩), []⟩

/-- One interleaving step of the loop.  `acquire` admits worker `i` when a
permit is free; `finish` completes running worker `i`: the permit is released
(`sem + 1`) for success, failure AND abnormal termination alike, and the URL
is appended to the failure list exactly when the result is `failure`. -/
inductive Step : OrchState → OrchState → Prop where
  | acquire (s : OrchState) (i : Nat) (t : WTask)
      (ht : s.tasks[i]? = some t) (hp : t.phase = Phase.notStarted) (hsem : 0 < s.sem) :
      Step s ⟨s.sem - 1, setTaskPhase s.tasks i Phase.running, s.failed⟩
  | finish (s : OrchState) (i : Nat) (t : WTask)
      (ht : s.tasks[i]? = some t) (hp : t.phase = Phase.running) :
      Step s ⟨s.sem + 1, setTaskPhase s.tasks i Phase.done,
        if t.result = WorkResult.failure then s.failed ++ [t.url] else s.failed⟩

/-- States reachable by the loop from the initial state. -/
def Reachable (N : Nat) (jobs : List Job) (s : OrchState) : Prop :=
  Relation.ReflTransGen Step (initState N jobs) s

/-- The loop has returned: `main` has awaited every worker. -/
def Final (s : OrchState) : Prop := ∀ t ∈ s.tasks, t.phase = Phase.done

instance (s : OrchState) : Decidable (Final s) := List.decidableBAll _ s.tasks

/-- Number of workers currently holding a permit (in-flight downloads). -/
def countRunning : List WTask → Nat
  | [] => 0
  | t :: ts => (if t.phase = Phase.running then 1 else 0) + countRunning ts

/-- Number of workers that finished with a successful download. -/
def successCount : List WTask → Nat
  | [] => 0
  | t :: ts =>
    (if t.phase = Phase.done ∧ t.result = WorkResult.success then 1 else 0) + successCount ts

/-- URLs of finished workers whose download failed, in task order. -/
def doneFailed : List WTask → List String
  | [] => []
  | t :: ts =>
    (if t.phase = Phase.done ∧ t.result = WorkResult.failure then [t.url] else [])
      ++ doneFailed ts

/-- Failure-target URLs of a job list, in job order. -/
def jobFailedUrls : List Job → List String
  | [] => []
  | j :: js => (if j.result = WorkResult.failure then [j.url] else []) ++ jobFailedUrls js

/-- Success count of a job list. -/
def jobSuccessCount : List Job → Nat
  | [] => 0
  | j :: js => (if j.result = WorkResult.success then 1 else 0) + jobSuccessCount js

theorem map_toJob_setTaskPhase (ts : List WTask) (i : Nat) (p : Phase) :
    (setTaskPhase ts i p).map WTask.toJob = ts.map WTask.toJob := by
  induction ts generalizing i with
  | nil => rfl
  | cons t rest ih =>
    cases i with
    | zero => simp [setTaskPhase, WTask.toJob]
    | succ i => simp [setTaskPhase, ih i]

theorem countRunning_set_running (ts : List WTask) (i : Nat) (t : WTask)
    (ht : ts[i]? = some t) (hp : t.phase ≠ Phase.running) :
    countRunning (setTaskPhase ts i Phase.running) = countRunning ts + 1 := by
  induction ts generalizing i with
  | nil => cases ht
  | cons t' rest ih =>
    cases i with
    | zero =>
      rw [List.getElem?_cons_zero, Option.some_inj] at ht
      subst ht
      simp [setTaskPhase, countRunning, if_neg hp]
      omega
    | succ i =>
      rw [List.getElem?_cons_succ] at ht
      simp only [setTaskPhase, countRunning, ih i ht]
      omega

theorem countRunning_set_done (ts : List WTask) (i : Nat) (t : WTask)
    (ht : ts[i]? = some t) (hp : t.phase = Phase.running) :
    countRunning (setTaskPhase ts i Phase.done) + 1 = countRunning ts := by
  induction ts generalizing i with
  | nil => cases ht
  | cons t' rest ih =>
    cases i with
    | zero =>
      rw [List.getElem?_cons_zero, Option.some_inj] at ht
      subst ht
      simp [setTaskPhase, countRunning, hp]
      omega
    | succ i =>
      rw [List.getElem?_cons_succ] at ht
      simp only [setTaskPhase, countRunning]
      have := ih i ht
      omega

theorem doneFailed_set_running (ts : List WTask) (i : Nat) (t : WTask)
    (ht : ts[i]? = some t) (hp : t.phase ≠ Phase.done) :
    doneFailed (setTaskPhase ts i Phase.running) = doneFailed ts := by
  induction ts generalizing i with
  | nil => cases ht
  | cons t' rest ih =>
    cases i with
    | zero =>
      rw [List.getElem?_cons_zero, Option.some_inj] at ht
      subst ht
      simp [setTaskPhase, doneFailed, hp]
    | succ i =>
      rw [List.getElem?_cons_succ] at ht
      simp [setTaskPhase, doneFailed, ih i ht]

theorem doneFailed_set_done (ts : List WTask) (i : Nat) (t : WTask)
    (ht : ts[i]? = some t) (hp : t.phase = Phase.running) :
    (doneFailed (setTaskPhase ts i Phase.done)).Perm
      ((if t.result = WorkResult.failure then [t.url] else []) ++ doneFailed ts) := by
  induction ts generalizing i with
  | nil => cases ht
  | cons t' rest ih =>
    cases i with
    | zero =>
      rw [List.getElem?_cons_zero, Option.some_inj] at ht
      subst ht
      simp [setTaskPhase, doneFailed, hp]
    | succ i =>
      rw [List.getElem?_cons_succ] at ht
      simp only [setTaskPhase, doneFailed]
      have hperm := ih i ht
      refine (List.Perm.append_left _ hperm).trans ?_
      rw [← List.append_assoc, ← List.append_assoc]
      exact List.Perm.append_right _ List.perm_append_comm

/-- The loop invariant: the tasks are exactly the jobs (progress aside), free
permits plus in-flight workers always equal `N`, and the failure list holds
exactly the finished failures, up to completion order. -/
def LoopInv (N : Nat) (jobs : List Job) (s : OrchState) : Prop :=
  s.tasks.map WTask.toJob = jobs
  ∧ s.sem + countRunning s.tasks = N
  ∧ s.failed.Perm (doneFailed s.tasks)

theorem map_toJob_pending (jobs : List Job) :
    (jobs.map (fun j => (⟨j.url, j.result, Phase.notStarted⟩ : WTask))).map WTask.toJob
      = jobs := by
  induction jobs with
  | nil => rfl
  | cons j js ih => simp only [List.map_cons, ih, WTask.toJob]

theorem inv_init (N : Nat) (jobs : List Job) : LoopInv N jobs (initState N jobs) := by
  refine ⟨map_toJob_pending jobs, ?_, ?_⟩
  · have h : countRunning (jobs.map (fun j => (⟨j.url, j.result, Phase.notStarted⟩ : WTask)))
        = 0 := by
      induction jobs with
      | nil => rfl
      | cons j js ih => simpa [countRunning] using ih
    simp [initState, h]
  · have h : doneFailed (jobs.map (fun j => (⟨j.url, j.result, Phase.notStarted⟩ : WTask)))
        = [] := by
      induction jobs with
      | nil => rfl
      | cons j js ih => simpa [doneFailed] using ih
    simp [initState, h]

theorem inv_step (N : Nat) (jobs : List Job) (s s' : OrchState)
    (hinv : LoopInv N jobs s) (hstep : Step s s') : LoopInv N jobs s' := by
  obtain ⟨hmap, hsem, hperm⟩ := hinv
  cases hstep with
  | acquire i t ht hp hsm =>
    refine ⟨by rw [map_toJob_setTaskPhase]; exact hmap, ?_, ?_⟩
    · have hc := countRunning_set_running s.tasks i t ht (by rw [hp]; intro h; cases h)
      simp only [hc]
      omega
    · have hd := doneFailed_set_running s.tasks i t ht (by rw [hp]; intro h; cases h)
      simpa [hd] using hperm
  | finish i t ht hp =>
    refine ⟨by rw [map_toJob_setTaskPhase]; exact hmap, ?_, ?_⟩
    · have hc := countRunning_set_done s.tasks i t ht hp
      dsimp only
      omega
    · have hd := doneFailed_set_done s.tasks i t ht hp
      by_cases hres : t.result = WorkResult.failure
      · rw [if_pos hres]
        refine List.Perm.trans ?_ hd.symm
        rw [if_pos hres]
        exact (List.perm_append_singleton t.url s.failed).trans
          (List.Perm.cons t.url hperm)
      · rw [if_neg hres]
        refine List.Perm.trans ?_ hd.symm
        rw [if_neg hres]
        simpa using hperm

theorem inv_reachable (N : Nat) (jobs : List Job) (s : OrchState)
    (h : Reachable N jobs s) : LoopInv N jobs s := by
  induction h with
  | refl => exact inv_init N jobs
  | tail hr hstep ih => exact inv_step N jobs _ _ ih hstep

theorem countRunning_eq_zero_of_done (ts : List WTask) (h : ∀ t ∈ ts, t.phase = Phase.done) :
    countRunning ts = 0 := by
  induction ts with
  | nil => rfl
  | cons t rest ih =>
    have hd := h t (List.mem_cons_self t rest)
    simp [countRunning, hd, ih (fun t' ht' => h t' (List.mem_cons_of_mem t ht'))]

theorem doneFailed_eq_jobFailedUrls (ts : List WTask) (h : ∀ t ∈ ts, t.phase = Phase.done) :
    doneFailed ts = jobFailedUrls (ts.map WTask.toJob) := by
  induction ts with
  | nil => rfl
  | cons t rest ih =>
    have hd := h t (List.mem_cons_self t rest)
    simp only [doneFailed, List.map_cons, jobFailedUrls, hd,
      ih (fun t' ht' => h t' (List.mem_cons_of_mem t ht'))]
    simp [WTask.toJob]

theorem successCount_eq_jobSuccessCount (ts : List WTask) (h : ∀ t ∈ ts, t.phase = Phase.done) :
    successCount ts = jobSuccessCount (ts.map WTask.toJob) := by
  induction ts with
  | nil => rfl
  | cons t rest ih =>
    have hd := h t (List.mem_cons_self t rest)
    simp only [successCount, List.map_cons, jobSuccessCount, hd,
      ih (fun t' ht' => h t' (List.mem_cons_of_mem t ht'))]
    simp [WTask.toJob]

theorem jobCounts_total (jobs : List Job) (h : ∀ j ∈ jobs, j.result ≠ WorkResult.abnormal) :
    jobSuccessCount jobs + (jobFailedUrls jobs).length = jobs.length := by
  induction jobs with
  | nil => rfl
  | cons j js ih =>
    have hj := h j (List.mem_cons_self j js)
    have htail := ih (fun j' hj' => h j' (List.mem_cons_of_mem j hj'))
    cases hres : j.result with
    | success => simp [jobSuccessCount, jobFailedUrls, hres]; omega
    | failure => simp [jobSuccessCount, jobFailedUrls, hres]; omega
    | abnormal => exact absurd hres hj

theorem getElem?_append_cons (A : List WTask) (t : WTask) (B : List WTask) :
    (A ++ t :: B)[A.length]? = some t := by
  induction A with
  | nil => simp
  | cons a A' ih => simpa using ih

theorem setTaskPhase_append (A : List WTask) (t : WTask) (B : List WTask) (p : Phase) :
    setTaskPhase (A ++ t :: B) A.length p = A ++ { t with phase := p } :: B := by
  induction A with
  | nil => rfl
  | cons a A' ih => simp [setTaskPhase, ih]

/-- The tasks of `jobs`, all finished. -/
def doneTasks (jobs : List Job) : List WTask :=
  jobs.map (fun j => ⟨j.url, j.result, Phase.done⟩)

/-- The tasks of `jobs`, all spawned but not admitted. -/
def pendingTasks (jobs : List Job) : List WTask :=
  jobs.map (fun j => ⟨j.url, j.result, Phase.notStarted⟩)

/-- The final state of the run that executes the workers one at a time in
dispatch order. -/
def finalSeqState (N : Nat) (jobs : List Job) : OrchState :=
  ⟨N, doneTasks jobs, jobFailedUrls jobs⟩

theorem jobFailedUrls_append (a b : List Job) :
    jobFailedUrls (a ++ b) = jobFailedUrls a ++ jobFailedUrls b := by
  induction a with
  | nil => rfl
  | cons j js ih => simp [jobFailedUrls, ih]

theorem reach_seq_aux (N : Nat) (hN : 0 < N) :
    ∀ (post pre : List Job),
      Relation.ReflTransGen Step
        ⟨N, doneTasks pre ++ pendingTasks post, jobFailedUrls pre⟩
        ⟨N, doneTasks (pre ++ post), jobFailedUrls (pre ++ post)⟩ := by
  intro post
  induction post with
  | nil =>
    intro pre
    have h1 : pendingTasks ([] : List Job) = [] := rfl
    rw [h1, List.append_nil, List.append_nil]
  | cons j post' ih =>
    intro pre
    have hpend : pendingTasks (j :: post')
        = (⟨j.url, j.result, Phase.notStarted⟩ : WTask) :: pendingTasks post' := rfl
    have hget1 : (doneTasks pre ++ pendingTasks (j :: post'))[(doneTasks pre).length]?
        = some ⟨j.url, j.result, Phase.notStarted⟩ := by
      rw [hpend, getElem?_append_cons]
    have hset1 : setTaskPhase (doneTasks pre ++ pendingTasks (j :: post'))
        (doneTasks pre).length Phase.running
        = doneTasks pre ++ (⟨j.url, j.result, Phase.running⟩ : WTask) :: pendingTasks post' := by
      rw [hpend, setTaskPhase_append]
    have hstep1 : Step
        ⟨N, doneTasks pre ++ pendingTasks (j :: post'), jobFailedUrls pre⟩
        ⟨N - 1, doneTasks pre ++ (⟨j.url, j.result, Phase.running⟩ : WTask) :: pendingTasks post',
          jobFailedUrls pre⟩ := by
      have h := Step.acquire
        ⟨N, doneTasks pre ++ pendingTasks (j :: post'), jobFailedUrls pre⟩
        (doneTasks pre).length ⟨j.url, j.result, Phase.notStarted⟩ hget1 rfl hN
      rw [hset1] at h
      exact h
    have hget2 : (doneTasks pre
          ++ (⟨j.url, j.result, Phase.running⟩ : WTask) :: pendingTasks post')[(doneTasks pre).length]?
        = some ⟨j.url, j.result, Phase.running⟩ := getElem?_append_cons _ _ _
    have hset2 : setTaskPhase
        (doneTasks pre ++ (⟨j.url, j.result, Phase.running⟩ : WTask) :: pendingTasks post')
        (doneTasks pre).length Phase.done
        = doneTasks pre ++ (⟨j.url, j.result, Phase.done⟩ : WTask) :: pendingTasks post' :=
      setTaskPhase_append _ _ _ _
    have htasks : doneTasks pre ++ (⟨j.url, j.result, Phase.done⟩ : WTask) :: pendingTasks post'
        = doneTasks (pre ++ [j]) ++ pendingTasks post' := by
      have : doneTasks (pre ++ [j]) = doneTasks pre ++ [⟨j.url, j.result, Phase.done⟩] := by
        simp [doneTasks]
      rw [this, List.append_assoc]
      rfl
    have hfail : (if j.result = WorkResult.failure then jobFailedUrls pre ++ [j.url]
          else jobFailedUrls pre)
        = jobFailedUrls (pre ++ [j]) := by
      rw [jobFailedUrls_append]
      by_cases hres : j.result = WorkResult.failure
      · simp [jobFailedUrls, hres]
      · simp [jobFailedUrls, hres]
    have hstep2 : Step
        ⟨N - 1, doneTasks pre ++ (⟨j.url, j.result, Phase.running⟩ : WTask) :: pendingTasks post',
          jobFailedUrls pre⟩
        ⟨N, doneTasks (pre ++ [j]) ++ pendingTasks post', jobFailedUrls (pre ++ [j])⟩ := by
      have h := Step.finish
        ⟨N - 1, doneTasks pre ++ (⟨j.url, j.result, Phase.running⟩ : WTask) :: pendingTasks post',
          jobFailedUrls pre⟩
        (doneTasks pre).length ⟨j.url, j.result, Phase.running⟩ hget2 rfl
      rw [hset2] at h
      have hsem : N - 1 + 1 = N := Nat.succ_pred_eq_of_pos hN
      simp only [hsem, htasks, hfail] at h
      exact h
    have hrest := ih (pre ++ [j])
    rw [List.append_assoc] at hrest
    have hrest' : Relation.ReflTransGen Step
        ⟨N, doneTasks (pre ++ [j]) ++ pendingTasks post', jobFailedUrls (pre ++ [j])⟩
        ⟨N, doneTasks (pre ++ j :: post'), jobFailedUrls (pre ++ j :: post')⟩ := by
      simpa using hrest
    exact Relation.ReflTransGen.head hstep1 (Relation.ReflTransGen.head hstep2 hrest')

theorem reach_seq (N : Nat) (hN : 0 < N) (jobs : List Job) :
    Reachable N jobs (finalSeqState N jobs) := by
  have h := reach_seq_aux N hN jobs []
  simpa [Reachable, initState, finalSeqState, doneTasks, pendingTasks, jobFailedUrls] using h

/-- C2: with concurrency limit N (1 ≤ N ≤ M), at no reachable instant do more
than N workers hold a permit (execute their fetch-or-persist work), and once
the run has completed all N permits are back — permits are released on every
exit path, success, failure and abnormal termination alike (the `finish` step
increments `sem` unconditionally). -/
theorem semaphore_bound (N : Nat) (jobs : List Job) (s : OrchState)
    (h1 : 1 ≤ N) (h2 : N ≤ jobs.length) (hr : Reachable N jobs s) :
    countRunning s.tasks ≤ N ∧ (Final s → s.sem = N) := by
  obtain ⟨hmap, hsem, hperm⟩ := inv_reachable N jobs s hr
  refine ⟨by omega, fun hf => ?_⟩
  have h0 := countRunning_eq_zero_of_done s.tasks hf
  omega

/-- Witness for C2 at a concrete run. -/
theorem semaphore_bound_witness :
    countRunning (initState 1 [⟨"t0", WorkResult.success⟩]).tasks ≤ 1
    ∧ (Final (initState 1 [⟨"t0", WorkResult.success⟩])
        → (initState 1 [⟨"t0", WorkResult.success⟩]).sem = 1) :=
  semaphore_bound 1 [⟨"t0", WorkResult.success⟩] _ (by decide) (by decide)
    Relation.ReflTransGen.refl

/-- C1 amended: when every worker runs to completion (no abnormal
termination), every reachable final state accounts for each target exactly
once: successes plus failure-log length equal the JobSet size, and the failure
log is, up to completion order, exactly the failing targets — none dropped,
none duplicated.  (A worker that terminates abnormally records no outcome; see
the counterexample.) -/
theorem outcome_accounting (N : Nat) (jobs : List Job) (s : OrchState)
    (hab : ∀ j ∈ jobs, j.result ≠ WorkResult.abnormal)
    (hr : Reachable N jobs s) (hf : Final s) :
    successCount s.tasks + s.failed.length = jobs.length
    ∧ s.failed.Perm (jobFailedUrls jobs) := by
  obtain ⟨hmap, hsem, hperm⟩ := inv_reachable N jobs s hr
  have hdf : doneFailed s.tasks = jobFailedUrls jobs := by
    rw [doneFailed_eq_jobFailedUrls s.tasks hf, hmap]
  have hpj : s.failed.Perm (jobFailedUrls jobs) := hdf ▸ hperm
  refine ⟨?_, hpj⟩
  have hsc : successCount s.tasks = jobSuccessCount jobs := by
    rw [successCount_eq_jobSuccessCount s.tasks hf, hmap]
  have hlen := hpj.length_eq
  have htot := jobCounts_total jobs hab
  omega

/-- A two-target job set: one success, one failure. -/
def jobs2 : List Job := [⟨"a", WorkResult.success⟩, ⟨"b", WorkResult.failure⟩]

/-- Witness for C1's amended statement at a concrete run. -/
theorem outcome_accounting_witness :
    successCount (finalSeqState 1 jobs2).tasks + (finalSeqState 1 jobs2).failed.length
        = jobs2.length
    ∧ (finalSeqState 1 jobs2).failed.Perm (jobFailedUrls jobs2) :=
  outcome_accounting 1 jobs2 (finalSeqState 1 jobs2) (by decide)
    (reach_seq 1 (by decide) jobs2) (by decide)

/-- A single target whose worker terminates abnormally after admission. -/
def jobsAb : List Job := [⟨"t0", WorkResult.abnormal⟩]

/-- Counterexample to C1: a worker that fails to run to completion (panic
inside the worker body — `main` discards the JoinError) yields NO outcome:
the run reaches a final state in which successes plus failure-log length is 0,
not the JobSet length 1, so the target is silently dropped. -/
theorem outcome_accounting_counterexample :
    Reachable 1 jobsAb (finalSeqState 1 jobsAb)
    ∧ Final (finalSeqState 1 jobsAb)
    ∧ jobsAb.length = 1
    ∧ successCount (finalSeqState 1 jobsAb).tasks + (finalSeqState 1 jobsAb).failed.length = 0 :=
  ⟨reach_seq 1 (by decide) jobsAb, by decide, rfl, by decide⟩

/-- The spec's concrete scenario for C4: five targets, the first one failing. -/
def jobs5 : List Job :=
  [⟨"t0", WorkResult.failure⟩, ⟨"t1", WorkResult.success⟩, ⟨"t2", WorkResult.success⟩,
   ⟨"t3", WorkResult.success⟩, ⟨"t4", WorkResult.success⟩]

/-- C4: with concurrency limit 2 and five targets whose first fetch fails, in
EVERY completed run (the orchestrator awaits all workers before returning) the
other four targets were still processed to successful completion, the failure
log is exactly the failing target's URL, and the failure produces a normal
completed outcome, not an error, for the caller. -/
theorem first_failure_isolated (s : OrchState)
    (hr : Reachable 2 jobs5 s) (hf : Final s) :
    s.failed = ["t0"]
    ∧ successCount s.tasks = 4
    ∧ (∀ t ∈ s.tasks, t.phase = Phase.done)
    ∧ exitNonZero (finishRun "out" s.failed (Except.ok ())) = false := by
  obtain ⟨hmap, hsem, hperm⟩ := inv_reachable 2 jobs5 s hr
  have hdf : doneFailed s.tasks = jobFailedUrls jobs5 := by
    rw [doneFailed_eq_jobFailedUrls s.tasks hf, hmap]
  have hpj : s.failed.Perm (jobFailedUrls jobs5) := hdf ▸ hperm
  have hfl : s.failed = ["t0"] := by
    have h5 : jobFailedUrls jobs5 = ["t0"] := by decide
    rw [h5] at hpj
    exact List.perm_singleton.mp hpj
  have hsc : successCount s.tasks = 4 := by
    rw [successCount_eq_jobSuccessCount s.tasks hf, hmap]
    decide
  refine ⟨hfl, hsc, hf, ?_⟩
  rw [hfl]
  decide

/-- Witness for C4 at a concrete completed run. -/
theorem first_failure_isolated_witness :
    (finalSeqState 2 jobs5).failed = ["t0"]
    ∧ successCount (finalSeqState 2 jobs5).tasks = 4
    ∧ (∀ t ∈ (finalSeqState 2 jobs5).tasks, t.phase = Phase.done)
    ∧ exitNonZero (finishRun "out" (finalSeqState 2 jobs5).failed (Except.ok ())) = false :=
  first_failure_isolated (finalSeqState 2 jobs5) (reach_seq 2 (by decide) jobs5) (by decide)
